import Mathlib

/-!
Shallow embedding of the shadowing-analysis core of the `pins` /
`policy_inspector` repository.

Sources embedded here:
* `src/policy_inspector/model/base.py` (the `AnyObj` wildcard, the action enum),
* `src/policy_inspector/model/security_rule.py` (`SecurityRule`,
  `AdvancedSecurityRule`),
* `src/policy_inspector/model/address_object.py` (the three address-object
  variants and their `is_covered_by` relation),
* `src/policy_inspector/resolver.py` (`Resolver`, `CircularDependencyError`),
* `src/policy_inspector/scenario/base.py` (`Scenario.run_checks`),
* `src/policy_inspector/scenario/shadowing.py` (the check predicates and the
  `Shadowing.execute` / `Shadowing.analyze` pipeline),
* `src/policy_inspector/scenario/advanced_shadowing.py` (the IP-aware address
  predicates).

Python `set[str]` fields are modelled as `Finset String`; Python dicts are
modelled as association lists with a newest-binding-wins lookup, which is the
observable behaviour of dict update/lookup.  Exceptions are modelled with
`Except` (or `Option` where only "raised / did not raise" is observable).
-/

/-- `AnyObj` wildcard from `model/base.py`. -/
def AnyObj : String := "any"

/-- `Action = Literal["allow", "deny", "monitor"]` from `model/base.py`. -/
inductive RuleAction where
  | allow
  | deny
  | monitor
deriving DecidableEq, Repr

/-- `SecurityRule` from `model/security_rule.py` (the fields the analysis
reads; display-only fields such as `index` and `enabled` defaults kept). -/
structure SecurityRule where
  name : String
  enabled : Bool := true
  action : RuleAction := .allow
  source_zones : Finset String := {"any"}
  destination_zones : Finset String := {"any"}
  source_addresses : Finset String := {"any"}
  destination_addresses : Finset String := {"any"}
  applications : Finset String := {"any"}
  services : Finset String := ∅
  category : Finset String := {"any"}
deriving DecidableEq

/-- `CheckResult = tuple[bool, str]` from `scenario/base.py`. -/
abbrev CheckResult := Bool × String

/-- `check_action` from `scenario/shadowing.py`: pure equality of actions. -/
def check_action (rule preceding_rule : SecurityRule) : CheckResult :=
  if rule.action = preceding_rule.action then
    (true, "Actions match")
  else
    (false, "Actions differ")

/-- `check_source_zone` from `scenario/shadowing.py`.  Note the subset test
is `preceding_rule.source_zones.issubset(rule.source_zones)` in the source,
i.e. preceding ⊆ rule. -/
def check_source_zone (rule preceding_rule : SecurityRule) : CheckResult :=
  if rule.source_zones = preceding_rule.source_zones then
    (true, "Source zones are the same")
  else if preceding_rule.source_zones ⊆ rule.source_zones then
    (true, "Preceding rule source zones cover rule's source zones")
  else if AnyObj ∈ preceding_rule.source_zones then
    (true, "Preceding rule source zones is 'any'")
  else
    (false, "Source zones differ")

/-- `check_destination_zone` from `scenario/shadowing.py`: here the subset
test is `rule.destination_zones.issubset(preceding_rule.destination_zones)`. -/
def check_destination_zone (rule preceding_rule : SecurityRule) : CheckResult :=
  if rule.destination_zones = preceding_rule.destination_zones then
    (true, "Destination zones are the same")
  else if rule.destination_zones ⊆ preceding_rule.destination_zones then
    (true, "Preceding rule destination zones cover rule's destination zones")
  else if AnyObj ∈ preceding_rule.destination_zones then
    (true, "Preceding rule destination zones is 'any'")
  else
    (false, "Destination zones differ")

/-- `check_source_address` from `scenario/shadowing.py`. -/
def check_source_address (rule preceding_rule : SecurityRule) : CheckResult :=
  if rule.source_addresses = preceding_rule.source_addresses then
    (true, "Source addresses are the same")
  else if AnyObj ∈ preceding_rule.source_addresses then
    (true, "Preceding rule allows any source address")
  else if AnyObj ∈ rule.source_addresses then
    (false, "Rule not covered due to 'any' source")
  else if rule.source_addresses ⊆ preceding_rule.source_addresses then
    (true, "Preceding rule source addresses cover rule's source addresses")
  else
    (false, "Source addresses not covered at all")

/-- `check_destination_address` from `scenario/shadowing.py` (no explicit
branch on `AnyObj` being in the rule's own set). -/
def check_destination_address (rule preceding_rule : SecurityRule) : CheckResult :=
  if AnyObj ∈ preceding_rule.destination_addresses then
    (true, "Preceding rule allows any destination address")
  else if rule.destination_addresses = preceding_rule.destination_addresses then
    (true, "Destination addresses are the same")
  else if rule.destination_addresses ⊆ preceding_rule.destination_addresses then
    (true, "Preceding rule destination addresses cover rule's destination addresses")
  else
    (false, "Destination addresses not covered at all")

/-- `check_application` from `scenario/shadowing.py`. -/
def check_application (rule preceding_rule : SecurityRule) : CheckResult :=
  if rule.applications = preceding_rule.applications then
    (true, "The same applications")
  else if AnyObj ∈ preceding_rule.applications then
    (true, "Preceding rule allows any application")
  else if rule.applications ⊆ preceding_rule.applications then
    (true, "Preceding rule contains rule's applications")
  else
    (false, "Rule doesn't cover")

/-- `check_services` from `scenario/shadowing.py`: equality or exact string
membership of every service of `rule` in `preceding_rule.services`. -/
def check_services (rule preceding_rule : SecurityRule) : CheckResult :=
  if rule.services = preceding_rule.services then
    (true, "Preceding rule and rule's services are the same")
  else if rule.services ⊆ preceding_rule.services then
    (true, "Preceding rule contains rule's applications")
  else
    (false, "Preceding rule does not contain all rule's applications")

/-- Association-list model of a Python dict: `dinsert` is `d[k] = v` and
`dlookup` is `d[k]`, with the newest binding for a key winning. -/
def dinsert {α : Type} (d : List (String × α)) (k : String) (v : α) :
    List (String × α) :=
  (k, v) :: d

/-- Lookup in the dict model: the newest binding wins. -/
def dlookup {α : Type} : List (String × α) → String → Option α
  | [], _ => none
  | (k', v) :: rest, k => if k = k' then some v else dlookup rest k

/-- A Python dict built by inserting the pairs of a list in order
(later duplicates overwrite earlier ones), as in a dict comprehension. -/
def buildDict {α : Type} (l : List (String × α)) : List (String × α) :=
  l.foldl (fun d p => dinsert d p.1 p.2) []

/-- The fixed `Shadowing.checks` list from `scenario/shadowing.py`, paired
with each check function's `__name__` (`run_checks` keys results by it). -/
def shadowingChecks : List (String × (SecurityRule → SecurityRule → CheckResult)) :=
  [("check_action", check_action),
   ("check_application", check_application),
   ("check_services", check_services),
   ("check_source_zone", check_source_zone),
   ("check_destination_zone", check_destination_zone),
   ("check_source_address", check_source_address),
   ("check_destination_address", check_destination_address)]

/-- `ChecksOutputs`: check name → check result, in check order. -/
abbrev ChecksOutputs := List (String × CheckResult)

/-- `PrecedingRulesOutputs`: preceding rule name → its checks outputs. -/
abbrev PrecedingRulesOutputs := List (String × ChecksOutputs)

/-- `ExecuteResults`: rule name → `PrecedingRulesOutputs`. -/
abbrev ExecuteResults := List (String × PrecedingRulesOutputs)

/-- `AnalysisResults` from `scenario/shadowing.py`. -/
abbrev AnalysisResults := List (SecurityRule × List SecurityRule)

/-- `Scenario.run_checks` from `scenario/base.py`, specialised to the
`Shadowing.checks` list.  The check functions of this scenario are total, so
the exception-swallowing branch of the Python code never fires and every
check's result is recorded. -/
def run_checks (rule preceding_rule : SecurityRule) : ChecksOutputs :=
  shadowingChecks.map (fun c => (c.1, c.2 rule preceding_rule))

/-- The inner loops of `Shadowing.execute`: `prev` is the already-visited
prefix of the rule list (the rules at indices `[0, i)`). -/
def executeAux : List SecurityRule → List SecurityRule → ExecuteResults
  | _, [] => []
  | prev, rule :: rest =>
      (rule.name, prev.map (fun p => (p.name, run_checks rule p)))
        :: executeAux (prev ++ [rule]) rest

/-- `Shadowing.execute` from `scenario/shadowing.py`. -/
def Shadowing.execute (rules : List SecurityRule) : ExecuteResults :=
  executeAux [] rules

/-- `self.rules_by_name = {rule.name: rule for rule in self.security_rules}`
from `Shadowing.__init__`. -/
def rulesByName (rules : List SecurityRule) (n : String) : Option SecurityRule :=
  dlookup (buildDict (rules.map (fun r => (r.name, r)))) n

/-- The inner loop of `Shadowing.analyze`: collect the preceding rules whose
recorded check results are all true.  `all()` over the recorded results is
true when every *recorded* result is true — in particular when no result was
recorded at all.  A failing `rules_by_name` lookup is a raised `KeyError`,
modelled as `none`. -/
def analyzeChecksLoop (rbn : String → Option SecurityRule) :
    PrecedingRulesOutputs → Option (List SecurityRule)
  | [] => some []
  | (preceding_rule_name, checks_results) :: rest =>
      if checks_results.all (fun c => c.2.1) then
        match rbn preceding_rule_name with
        | none => none
        | some p =>
            match analyzeChecksLoop rbn rest with
            | none => none
            | some l => some (p :: l)
      else analyzeChecksLoop rbn rest

/-- The outer loop of `Shadowing.analyze`: a rule enters the analysis results
iff its list of fully-true preceding rules is non-empty. -/
def analyzeAux (rbn : String → Option SecurityRule) :
    ExecuteResults → Option AnalysisResults
  | [] => some []
  | (rule_name, rule_results) :: rest =>
      match analyzeChecksLoop rbn rule_results with
      | none => none
      | some shadowing_rules =>
          match analyzeAux rbn rest with
          | none => none
          | some analysis_rest =>
              if shadowing_rules.isEmpty then some analysis_rest
              else
                match rbn rule_name with
                | none => none
                | some rule => some ((rule, shadowing_rules) :: analysis_rest)

/-- `Shadowing.analyze` from `scenario/shadowing.py`, over the scenario built
from `rules` (which provides `rules_by_name`). -/
def Shadowing.analyze (rules : List SecurityRule) (results : ExecuteResults) :
    Option AnalysisResults :=
  analyzeAux (rulesByName rules) results

/-- Split a character list at every occurrence of the separator `c` (the
behaviour of Python `str.split` with a one-character separator, which is the
only form the embedded code uses: `"."`, `"/"`, `"-"`). -/
def splitChar (c : Char) : List Char → List (List Char)
  | [] => [[]]
  | x :: xs =>
    if x = c then [] :: splitChar c xs
    else
      match splitChar c xs with
      | [] => [[x]]
      | h :: t => (x :: h) :: t

/-- Digits-only character list to its numeric value. -/
def parseDigits (l : List Char) : Option Nat :=
  if l.length = 0 then none
  else if l.all Char.isDigit then
    some (l.foldl (fun acc c => acc * 10 + (c.toNat - 48)) 0)
  else none

/-- One octet of a dotted-quad IPv4 address, with CPython `ipaddress` rules:
at most three characters, digits only, no leading zero, value at most 255. -/
def parseOctet (l : List Char) : Option Nat :=
  if l.length = 0 ∨ 3 < l.length then none
  else if ¬ l.all Char.isDigit then none
  else if 1 < l.length ∧ l.head? = some '0' then none
  else
    let n := l.foldl (fun acc c => acc * 10 + (c.toNat - 48)) 0
    if n ≤ 255 then some n else none

/-- `IPv4Address` on a character list: four dot-separated octets, as a `Nat`
below `2^32`. -/
def parseIPv4Chars (l : List Char) : Option Nat :=
  match splitChar '.' l with
  | [a, b, c, d] =>
      match parseOctet a, parseOctet b, parseOctet c, parseOctet d with
      | some a', some b', some c', some d' =>
          some (((a' * 256 + b') * 256 + c') * 256 + d')
      | _, _, _, _ => none
  | _ => none

/-- `IPv4Address(s)` on a string. -/
def parseIPv4Address (s : String) : Option Nat :=
  parseIPv4Chars s.data

/-- An IPv4 network: network address (host bits zero) plus prefix length. -/
structure IPNet where
  netAddr : Nat
  prefixLen : Nat
deriving DecidableEq

/-- `IPv4Network.broadcast_address`. -/
def IPNet.broadcastAddr (n : IPNet) : Nat :=
  n.netAddr + (2 ^ (32 - n.prefixLen) - 1)

/-- A CIDR prefix length: digit string with value at most 32. -/
def parsePrefixLen (l : List Char) : Option Nat :=
  match parseDigits l with
  | some n => if n ≤ 32 then some n else none
  | none => none

/-- `IPv4Network(s, strict=False)` on a string: either a bare address
(prefix 32) or `addr/prefix`; with `strict=False` the host bits of the
address are masked away.  (CPython additionally accepts dotted
netmask/hostmask suffixes; those forms are not modelled and none of the
theorems below depends on them.) -/
def parseIPv4Network (s : String) : Option IPNet :=
  match splitChar '/' s.data with
  | [addr] => (parseIPv4Chars addr).map (fun a => ⟨a, 32⟩)
  | [addr, p] =>
      match parseIPv4Chars addr, parsePrefixLen p with
      | some a, some pl => some ⟨a / 2 ^ (32 - pl) * 2 ^ (32 - pl), pl⟩
      | _, _ => none
  | _ => none

/-- The tagged sum of the three `AddressObject` variants of
`model/address_object.py` (`AddressObjectIPNetwork`, `AddressObjectIPRange`,
`AddressObjectFQDN`), with the `name` field each carries. -/
inductive AddrObj where
  | ipNetwork (name : String) (net : IPNet)
  | ipRange (name : String) (lo hi : Nat)
  | fqdn (name : String) (value : String)
deriving DecidableEq

/-- The `name` field of an `AddressObject`. -/
def AddrObj.name : AddrObj → String
  | .ipNetwork n _ => n
  | .ipRange n _ _ => n
  | .fqdn n _ => n

/-- `IPv4Network.subnet_of`: containment of `a` in `b`. -/
def subnet_of (a b : IPNet) : Bool :=
  decide (b.netAddr ≤ a.netAddr ∧ a.broadcastAddr ≤ b.broadcastAddr)

/-- `is_covered_by` dispatch over the three variants, from
`model/address_object.py`.  FQDN values are compared lowercased; every
cross-variant comparison involving an FQDN is `False`. -/
def AddrObj.is_covered_by : AddrObj → AddrObj → Bool
  | .ipNetwork _ n, .ipNetwork _ n' => subnet_of n n'
  | .ipNetwork _ n, .ipRange _ lo hi =>
      decide (lo ≤ n.netAddr ∧ n.broadcastAddr ≤ hi)
  | .ipNetwork _ _, .fqdn _ _ => false
  | .ipRange _ lo hi, .ipNetwork _ n =>
      decide (n.netAddr ≤ lo ∧ hi ≤ n.broadcastAddr)
  | .ipRange _ lo hi, .ipRange _ lo' hi' => decide (lo' ≤ lo ∧ hi ≤ hi')
  | .ipRange _ _ _, .fqdn _ _ => false
  | .fqdn _ v, .fqdn _ v' => v.toLower == v'.toLower
  | .fqdn _ _, _ => false

/-- Test for the FQDN variant (`isinstance(x, AddressObjectFQDN)`). -/
def AddrObj.isFqdn : AddrObj → Bool
  | .fqdn _ _ => true
  | _ => false

/-- Construction errors of `AddressObjectIPRange`: the `value` string does
not split into two parseable IPv4 addresses (a pydantic coercion error), or
the validator `check` fires (`"last IP address must be greater than first"`).
Both are `ValueError`s in Python; the second is the spec's
`InvalidRangeError`. -/
inductive RangeErr where
  | malformed
  | invalidRange
deriving DecidableEq

/-- Split a `"low-high"` string into two IPv4 addresses (the `mode="before"`
validator `convert` of `AddressObjectIPRange` plus pydantic's tuple check). -/
def parseIPRangeParts (s : String) : Option (Nat × Nat) :=
  match splitChar '-' s.data with
  | [a, b] =>
      match parseIPv4Chars a, parseIPv4Chars b with
      | some lo, some hi => some (lo, hi)
      | _, _ => none
  | _ => none

/-- `AddressObjectIPRange(name=..., value=...)` on a string value: the two
field validators in order — coercion, then the `v[0] > v[1]` check. -/
def mkAddressObjectIPRange (name value : String) : Except RangeErr AddrObj :=
  match parseIPRangeParts value with
  | none => .error .malformed
  | some (lo, hi) =>
      if lo > hi then .error .invalidRange else .ok (.ipRange name lo hi)

/-- `AddressGroup` from `model/address_group.py`: a name and the `static`
member-name set (kept as a list; Python iterates the set in a fixed but
unspecified order, which only affects result order, not membership). -/
structure AddressGroup where
  name : String
  static : List String

/-- The errors `Resolver` can raise: `CircularDependencyError` (a
`ValueError` carrying the path message) and the final
`ValueError("Unknown address object/group: ...")`.  `fuelOut` is an artifact
of the fuelled embedding and is unreachable for the fuel `Resolver.resolve`
supplies. -/
inductive RErr where
  | circular (msg : String)
  | unknown (msg : String)
  | fuelOut
deriving DecidableEq

/-- Does an `RErr` model a raised `CircularDependencyError`? -/
def RErr.isCircular : RErr → Bool
  | .circular _ => true
  | _ => false

/-- Is a resolver outcome a raised `CircularDependencyError`? -/
def resultIsCircular {α : Type} : Except RErr α → Bool
  | .error e => e.isCircular
  | .ok _ => false

/-- The state a `Resolver` is constructed with: the two name-keyed dicts
built in `Resolver.__init__`. -/
structure ResolverConfig where
  addressObjects : List (String × AddrObj)
  addressGroups : List (String × List String)

/-- `Resolver.__init__`: build the `address_objects` and `address_groups`
dicts from the input lists. -/
def Resolver.ofLists (objects : List AddrObj) (groups : List AddressGroup) :
    ResolverConfig :=
  { addressObjects := buildDict (objects.map (fun ao => (ao.name, ao))),
    addressGroups := buildDict (groups.map (fun ag => (ag.name, ag.static))) }

/-- The resolver's private cache, `self.cache: dict[str, list[AddressObject]]`. -/
abbrev Cache := List (String × List AddrObj)

/-- `Resolver._resolve_name` from `resolver.py`.  The active resolution
`path` is modelled as a list with the most recent name at the head (the
Python code keeps a set and joins it in set-iteration order for the error
message; membership, which the control flow depends on, is identical).  The
`Nat` fuel only serves termination of the embedding.  The member loop
(`resolved.extend(self._resolve_name(member, new_path))`) is the inlined
`foldl` threading the cache and collecting results, raising exceptions as
`.error`. -/
def resolveName (cfg : ResolverConfig) :
    Nat → Cache → List String → String → Except RErr (List AddrObj × Cache)
  | 0, _, _, _ => .error .fuelOut
  | fuel + 1, cache, path, name =>
    if name = "any" then .ok ([], cache)
    else if name ∈ path then
      .error (.circular
        ("Circular dependency detected in address group resolution: "
          ++ String.intercalate " -> " path.reverse ++ " -> " ++ name))
    else
      match dlookup cache name with
      | some r => .ok (r, cache)
      | none =>
        match dlookup cfg.addressGroups name with
        | some members =>
            match members.foldl
                (fun acc m =>
                  match acc with
                  | .error e => .error e
                  | .ok (rs, c) =>
                      match resolveName cfg fuel c (name :: path) m with
                      | .error e => .error e
                      | .ok (r, c') => .ok (rs ++ r, c'))
                (.ok ([], cache) : Except RErr (List AddrObj × Cache)) with
            | .ok (rs, c) => .ok (rs, dinsert c name rs)
            | .error e => .error e
        | none =>
          match dlookup cfg.addressObjects name with
          | some ao => .ok ([ao], dinsert cache name [ao])
          | none =>
            match parseIPv4Network name with
            | some net =>
                .ok ([.ipNetwork name net], dinsert cache name [.ipNetwork name net])
            | none =>
              match mkAddressObjectIPRange name name with
              | .ok r => .ok ([r], dinsert cache name [r])
              | .error _ =>
                  .error (.unknown ("Unknown address object/group: " ++ name))

/-- Sequential resolution of a list of names with the cache threaded through
and results collected with `extend`, written as explicit recursion: the
lemma `foldl_resolve_eq` below identifies it with the `foldl` loops used in
`resolveName` and `Resolver.resolveSt`. -/
def resolveNames (cfg : ResolverConfig) (fuel : Nat) :
    Cache → List String → List String → Except RErr (List AddrObj × Cache)
  | cache, _, [] => .ok ([], cache)
  | cache, path, n :: rest =>
    match resolveName cfg fuel cache path n with
    | .error e => .error e
    | .ok (r, c) =>
        match resolveNames cfg fuel c path rest with
        | .error e => .error e
        | .ok (rs, c') => .ok (r ++ rs, c')

/-- `Resolver.resolve` against an explicit cache state, returning the final
cache as well: the loop `result.extend(self._resolve_name(name, set()))`
over the given names, each with a fresh empty path.  The recursion depth of
`_resolve_name` is bounded by the number of address groups plus two (the
path only ever collects distinct group names), so this fuel makes `fuelOut`
unreachable. -/
def Resolver.resolveSt (cfg : ResolverConfig) (cache : Cache)
    (names : List String) : Except RErr (List AddrObj × Cache) :=
  names.foldl
    (fun acc n =>
      match acc with
      | .error e => .error e
      | .ok (rs, c) =>
          match resolveName cfg (cfg.addressGroups.length + 2) c [] n with
          | .error e => .error e
          | .ok (r, c') => .ok (rs ++ r, c'))
    (.ok ([], cache) : Except RErr (List AddrObj × Cache))

/-- `Resolver.resolve` on a freshly constructed resolver (empty cache). -/
def Resolver.resolve (cfg : ResolverConfig) (names : List String) :
    Except RErr (List AddrObj) :=
  match Resolver.resolveSt cfg [] names with
  | .ok (rs, _) => .ok rs
  | .error e => .error e

/-- `AdvancedSecurityRule` from `model/security_rule.py`: a `SecurityRule`
plus the optionally resolved address lists (`None` when the raw field
contained `any` or was empty). -/
structure AdvancedSecurityRule extends SecurityRule where
  resolved_source_addresses : Option (List AddrObj) := none
  resolved_destination_addresses : Option (List AddrObj) := none
deriving DecidableEq

/-- Rendering of an address object's `value` for check messages. -/
def AddrObj.valueStr : AddrObj → String
  | .ipNetwork _ net => toString net.netAddr ++ "/" ++ toString net.prefixLen
  | .ipRange _ lo hi => toString lo ++ "-" ++ toString hi
  | .fqdn _ v => v

/-- The per-address loop shared by `check_source_addresses_by_ip` and
`check_destination_addresses_by_ip` in `scenario/advanced_shadowing.py`
(both use the same, destination-worded, messages).  FQDN entries are counted
and skipped; a non-FQDN entry not covered by any non-FQDN preceding entry
returns false immediately; after the loop both branches return true.  A
`none` preceding list means the Python code iterates `None` and raises
(`none` here); `run_checks` would then drop the result. -/
def coverageLoop (precedingResolved : Option (List AddrObj)) (total : Nat) :
    List AddrObj → Nat → Option CheckResult
  | [], fqdn_count =>
      some (if fqdn_count = total then
        (true, "FQDN destinations excluded from coverage check")
      else
        (true, "All non-FQDN destination addresses are covered by preceding rule(s)"))
  | addr_obj :: rest, fqdn_count =>
    if addr_obj.isFqdn then coverageLoop precedingResolved total rest (fqdn_count + 1)
    else
      match precedingResolved with
      | none => none
      | some pres =>
        if pres.any (fun p => !p.isFqdn && addr_obj.is_covered_by p) then
          coverageLoop precedingResolved total rest fqdn_count
        else
          some (false, "Destination " ++ addr_obj.name ++ " (" ++ addr_obj.valueStr
            ++ ") not covered by preceding rule")

/-- `check_destination_addresses_by_ip` from
`scenario/advanced_shadowing.py`.  `none` models the `TypeError` raised when
the rule's resolved list is `None` and gets iterated. -/
def check_destination_addresses_by_ip (rule preceding_rule : AdvancedSecurityRule) :
    Option CheckResult :=
  if rule.destination_addresses = preceding_rule.destination_addresses then
    some (true, "Destination addresses are identical")
  else if AnyObj ∈ preceding_rule.destination_addresses then
    some (true, "Preceding rule allows any destination")
  else if AnyObj ∈ rule.destination_addresses then
    some (false, "Current rule allows any destination (too broad)")
  else
    match rule.resolved_destination_addresses with
    | none => none
    | some rres =>
        coverageLoop preceding_rule.resolved_destination_addresses rres.length rres 0

/-- `check_source_addresses_by_ip` from `scenario/advanced_shadowing.py`
(identical structure over the source fields; the messages in the source are
the destination-worded ones there too). -/
def check_source_addresses_by_ip (rule preceding_rule : AdvancedSecurityRule) :
    Option CheckResult :=
  if rule.source_addresses = preceding_rule.source_addresses then
    some (true, "Destination addresses are identical")
  else if AnyObj ∈ preceding_rule.source_addresses then
    some (true, "Preceding rule allows any destination")
  else if AnyObj ∈ rule.source_addresses then
    some (false, "Current rule allows any destination (too broad)")
  else
    match rule.resolved_source_addresses with
    | none => none
    | some rres =>
        coverageLoop preceding_rule.resolved_source_addresses rres.length rres 0

deriving instance DecidableEq for Except

/-- The aggregation test of `Shadowing.analyze` for one (rule, preceding)
pair of the full pipeline: every check recorded by `run_checks` is true. -/
def qualifies (rule preceding_rule : SecurityRule) : Bool :=
  (run_checks rule preceding_rule).all (fun c => c.2.1)

/-- Specification-side description of `analyze(execute(rules))`: walk the
rules with the visited prefix `prev`; a rule enters the findings iff its
list of qualifying preceding rules is non-empty, paired with all of them. -/
def findingsSpec : List SecurityRule → List SecurityRule → AnalysisResults
  | _, [] => []
  | prev, r :: rest =>
      let q := prev.filter (fun p => qualifies r p)
      if q.isEmpty then findingsSpec (prev ++ [r]) rest
      else (r, q) :: findingsSpec (prev ++ [r]) rest

/-- Does the pattern occur at the start of the character list? -/
def startsWith : List Char → List Char → Bool
  | [], _ => true
  | _ :: _, [] => false
  | a :: pat, b :: s => a = b && startsWith pat s

/-- Does the pattern occur anywhere in the character list? -/
def occursIn (pat : List Char) : List Char → Bool
  | [] => startsWith pat []
  | c :: rest => startsWith pat (c :: rest) || occursIn pat rest

/-- Substring test (for the circular-dependency error message). -/
def containsSub (s t : String) : Bool := occursIn t.data s.data

/-- Acyclicity of a group graph, witnessed by a rank function: every member
of every group entry has strictly smaller rank than the group itself. -/
def RankDecreasing (cfg : ResolverConfig) (rank : String → Nat) : Prop :=
  ∀ p ∈ cfg.addressGroups, ∀ m ∈ p.2, rank m < rank p.1

instance (cfg : ResolverConfig) (rank : String → Nat) :
    Decidable (RankDecreasing cfg rank) := by
  unfold RankDecreasing
  infer_instance

/-- Rule `R1(allow, zoneA→zoneB, any/any, app=web, svc=http)` of the spec's
order-sensitivity scenario. -/
def ruleR1 : SecurityRule :=
  { name := "R1", action := .allow, source_zones := {"zoneA"},
    destination_zones := {"zoneB"}, source_addresses := {"any"},
    destination_addresses := {"any"}, applications := {"web"},
    services := {"http"} }

/-- Rule `R2(deny, same fields)`. -/
def ruleR2 : SecurityRule := { ruleR1 with name := "R2", action := .deny }

/-- Rule `R3(allow, same fields as R1)`. -/
def ruleR3 : SecurityRule := { ruleR1 with name := "R3" }

/-- Two default-field rules used with a hand-crafted execute-result map. -/
def plainRule1 : SecurityRule := { name := "P1" }

/-- Second default-field rule. -/
def plainRule2 : SecurityRule := { name := "P2" }

/-- The cyclic configuration `AddressGroup("A", static={"B"})`,
`AddressGroup("B", static={"A"})`. -/
def cfgCycle : ResolverConfig :=
  Resolver.ofLists [] [⟨"A", ["B"]⟩, ⟨"B", ["A"]⟩]

/-- A concrete address object (`10.0.0.1/32`) for the diamond graph. -/
def objD : AddrObj := .ipNetwork "D" ⟨167772161, 32⟩

/-- A diamond (acyclic) configuration: `A → {B, C}`, `B → {D}`, `C → {D}`,
where `D` is an address object reachable through two different paths. -/
def cfgDiamond : ResolverConfig :=
  Resolver.ofLists [objD] [⟨"A", ["B", "C"]⟩, ⟨"B", ["D"]⟩, ⟨"C", ["D"]⟩]

/-- A rank function showing `cfgDiamond` acyclic. -/
def diamondRank : String → Nat :=
  fun s => if s = "A" then 2 else if s = "B" then 1 else if s = "C" then 1 else 0

/-- Advanced rule with one resolved destination network `10.0.0.0/32`. -/
def advRule : AdvancedSecurityRule :=
  { name := "AR", destination_addresses := {"d1"},
    resolved_destination_addresses := some [.ipNetwork "o1" ⟨167772160, 32⟩] }

/-- Advanced preceding rule whose resolved destination `10.0.0.0/24` covers
`advRule`'s. -/
def advPreceding : AdvancedSecurityRule :=
  { name := "AP", destination_addresses := {"d2"},
    resolved_destination_addresses := some [.ipNetwork "o2" ⟨167772160, 24⟩] }

/-- One cache extends another: every binding visible in the first is visible
unchanged in the second (the resolver only ever adds fresh entries). -/
def CacheExt (c c' : Cache) : Prop :=
  ∀ k v, dlookup c k = some v → dlookup c' k = some v

/-- Keys newly cached by a resolver call are never on the active path the
call was entered with. -/
def NewKeysOffPath (c c' : Cache) (path : List String) : Prop :=
  ∀ k, dlookup c k = none → dlookup c' k ≠ none → k ∉ path

/-- The cache produced by `Resolver.resolveSt cfgDiamond [] ["A"]`. -/
def cacheDiamond : Cache :=
  [("A", [objD, objD]), ("C", [objD]), ("B", [objD]), ("D", [objD])]

/-- C4: on the concrete list `[R1(allow), R2(deny), R3(allow)]` with
otherwise identical fields, `analyze(execute(...))` reports exactly one
finding — `R3` shadowed by `[R1]` only; `check_action` (pure action
equality) fails for `R3` against `R2` and for `R2` against `R1`, so `R2`
neither shadows `R3` nor is itself reported as shadowed. -/
theorem shadowing_order_sensitivity_scenario :
    Shadowing.analyze [ruleR1, ruleR2, ruleR3]
        (Shadowing.execute [ruleR1, ruleR2, ruleR3]) =
      some [(ruleR3, [ruleR1])] ∧
    (check_action ruleR3 ruleR2).1 = false ∧
    (check_action ruleR2 ruleR1).1 = false := by
  refine ⟨by decide, by decide, by decide⟩

/-- C3 (code evidence): `check_source_zone` runs its subset test in the
reversed direction.  On `rule.source_zones = {trust, dmz}` against
`preceding.source_zones = {trust}` — sets unequal, no wildcard in the
preceding set, and the rule's set is not a subset of the preceding set, so
the claimed semantics give `covered = false` — the code returns
`covered = true`; conversely for `rule = {trust}` against
`preceding = {trust, dmz}`, where the claimed semantics give `true`, the
code returns `false`. -/
theorem check_source_zone_uses_reversed_subset :
    (check_source_zone { name := "r", source_zones := {"trust", "dmz"} }
        { name := "p", source_zones := {"trust"} }).1 = true ∧
    ¬ (({"trust", "dmz"} : Finset String) ⊆ {"trust"}) ∧
    ({"trust", "dmz"} : Finset String) ≠ {"trust"} ∧
    AnyObj ∉ ({"trust"} : Finset String) ∧
    (check_source_zone { name := "r", source_zones := {"trust"} }
        { name := "p", source_zones := {"trust", "dmz"} }).1 = false ∧
    ({"trust"} : Finset String) ⊆ {"trust", "dmz"} ∧
    AnyObj ∉ ({"trust", "dmz"} : Finset String) := by
  refine ⟨by decide, by decide, by decide, by decide, by decide, by decide, by decide⟩

/-- C1 (counterexample): giving `analyze` an execute-result map in which the
pair (P2, P1) has an *empty* recorded result map — as happens when every
predicate raised and was omitted — the pair IS reported as a full-shadowing
pair, because `all()` over an empty collection is true. -/
theorem analyze_reports_pair_with_empty_result_map :
    Shadowing.analyze [plainRule1, plainRule2] [("P2", [("P1", [])])] =
      some [(plainRule2, [plainRule1])] := by decide

/-- C8: constructing an `AddressObjectIPRange` whose low endpoint exceeds
its high endpoint fails with the invalid-range construction error, and every
successfully constructed range satisfies `low ≤ high`. -/
theorem iprange_low_le_high_invariant :
    mkAddressObjectIPRange "badRange" "10.0.0.5-10.0.0.1" = .error .invalidRange ∧
    ∀ name value a, mkAddressObjectIPRange name value = .ok a →
      ∃ lo hi, a = .ipRange name lo hi ∧ lo ≤ hi := by
  constructor
  · decide
  · intro n v a h
    unfold mkAddressObjectIPRange at h
    rcases hpv : parseIPRangeParts v with _ | ⟨lo, hi⟩ <;> simp only [hpv] at h
    · cases h
    · by_cases hlt : lo > hi
      · simp only [if_pos hlt] at h
        cases h
      · simp only [if_neg hlt, Except.ok.injEq] at h
        exact ⟨lo, hi, h.symm, by omega⟩

/-- Witness for `iprange_low_le_high_invariant` at the well-ordered range
`10.0.0.1-10.0.0.5`. -/
theorem iprange_low_le_high_invariant_witness :
    ∃ lo hi, AddrObj.ipRange "w" 167772161 167772165 = .ipRange "w" lo hi ∧ lo ≤ hi :=
  iprange_low_le_high_invariant.2 "w" "10.0.0.1-10.0.0.5"
    (.ipRange "w" 167772161 167772165) (by decide)

/-- C10: the covered booleans of `check_source_address` and
`check_destination_address` agree whenever the rule sets and the preceding
sets coincide pairwise — the destination variant's missing explicit
early-false branch for `AnyObj` in the rule's own set is immaterial, since a
set containing `any` is never a subset of one that lacks it. -/
theorem source_and_destination_address_checks_agree
    (r p r' p' : SecurityRule)
    (h1 : r.source_addresses = r'.destination_addresses)
    (h2 : p.source_addresses = p'.destination_addresses) :
    (check_source_address r p).1 = (check_destination_address r' p').1 := by
  unfold check_source_address check_destination_address
  rw [h1, h2]
  by_cases hP : AnyObj ∈ p'.destination_addresses
  · by_cases hEq : r'.destination_addresses = p'.destination_addresses <;>
      simp [hP, hEq]
  · by_cases hEq : r'.destination_addresses = p'.destination_addresses
    · simp [hP, hEq]
    · by_cases hR : AnyObj ∈ r'.destination_addresses
      · have hsub : ¬ r'.destination_addresses ⊆ p'.destination_addresses :=
          fun hs => hP (hs hR)
        simp [hP, hEq, hR, hsub]
      · by_cases hS : r'.destination_addresses ⊆ p'.destination_addresses <;>
          simp [hP, hEq, hR, hS]

/-- Witness for `source_and_destination_address_checks_agree` on two
default-field rules. -/
theorem source_and_destination_address_checks_agree_witness :
    (check_source_address plainRule1 plainRule2).1 =
      (check_destination_address plainRule1 plainRule2).1 :=
  source_and_destination_address_checks_agree plainRule1 plainRule2
    plainRule1 plainRule2 rfl rfl

/-- If the inner loop of `analyze` returns a list for a preceding-rule map
containing an entry whose recorded results are all true, then that entry's
rule is in the list. -/
theorem analyzeChecksLoop_reports_all_true
    (rbn : String → Option SecurityRule) (rres : PrecedingRulesOutputs)
    (l : List SecurityRule) (pn : String) (checks : ChecksOutputs)
    (hl : analyzeChecksLoop rbn rres = some l)
    (hmem : (pn, checks) ∈ rres)
    (hall : checks.all (fun c => c.2.1) = true) :
    ∃ p, rbn pn = some p ∧ p ∈ l := by
  induction rres generalizing l with
  | nil => cases hmem
  | cons head rest ih =>
    obtain ⟨hn, hcs⟩ := head
    rw [analyzeChecksLoop] at hl
    cases hmem with
    | head =>
      rw [hall] at hl
      simp only [if_pos] at hl
      cases hpn : rbn pn with
      | none => rw [hpn] at hl; cases hl
      | some p =>
        rw [hpn] at hl
        cases hrec : analyzeChecksLoop rbn rest with
        | none => rw [hrec] at hl; cases hl
        | some l' =>
          rw [hrec] at hl
          cases hl
          exact ⟨p, rfl, List.mem_cons_self _ _⟩

    | tail _ hmem2 =>
      by_cases hc : hcs.all (fun c => c.2.1) = true
      · rw [hc] at hl
        simp only [if_pos] at hl
        cases hqn : rbn hn with
        | none => rw [hqn] at hl; cases hl
        | some q =>
          rw [hqn] at hl
          cases hrec : analyzeChecksLoop rbn rest with
          | none => rw [hrec] at hl; cases hl
          | some l' =>
            rw [hrec] at hl
            cases hl
            obtain ⟨p, hpn, hpl⟩ := ih l' hrec hmem2
            exact ⟨p, hpn, List.mem_cons_of_mem _ hpl⟩
      · rw [Bool.not_eq_true] at hc
        rw [hc] at hl
        simp only [Bool.false_eq_true, if_false] at hl
        exact ih l hl hmem2

/-- Sufficiency half of the aggregation behaviour of `analyze`: a (rule,
preceding) pair whose *present* recorded results are all true — in
particular a pair with an empty result map — is reported with that preceding
rule in the rule's shadowing list. -/
theorem analyze_all_present_true_reported
    (rules : List SecurityRule) (results : ExecuteResults) (F : AnalysisResults)
    (rn : String) (rres : PrecedingRulesOutputs) (pn : String) (checks : ChecksOutputs)
    (hF : Shadowing.analyze rules results = some F)
    (hr : (rn, rres) ∈ results)
    (hp : (pn, checks) ∈ rres)
    (hall : checks.all (fun c => c.2.1) = true) :
    ∃ r ps p, (r, ps) ∈ F ∧ rulesByName rules rn = some r ∧
      rulesByName rules pn = some p ∧ p ∈ ps := by
  unfold Shadowing.analyze at hF
  induction results generalizing F with
  | nil => cases hr
  | cons head rest ih =>
    obtain ⟨hn, hres⟩ := head
    rw [analyzeAux] at hF
    cases hcl : analyzeChecksLoop (rulesByName rules) hres with
    | none => rw [hcl] at hF; cases hF
    | some l =>
      rw [hcl] at hF
      cases har : analyzeAux (rulesByName rules) rest with
      | none => rw [har] at hF; cases hF
      | some F' =>
        rw [har] at hF
        dsimp only at hF
        cases hr with
        | head =>
          obtain ⟨p, hpn, hpl⟩ :=
            analyzeChecksLoop_reports_all_true (rulesByName rules) rres l pn checks hcl hp hall
          have hne : l.isEmpty = false := by
            cases l
            · cases hpl
            · rfl
          rw [hne] at hF
          simp only [Bool.false_eq_true, if_false] at hF
          cases hrn : rulesByName rules rn with
          | none => rw [hrn] at hF; cases hF
          | some r =>
            rw [hrn] at hF
            cases hF
            exact ⟨r, l, p, List.mem_cons_self _ _, rfl, hpn, hpl⟩
        | tail _ hr2 =>
          obtain ⟨r, ps, p, hmemF, hrn, hpn, hpl⟩ := ih F' har hr2
          by_cases hne : l.isEmpty = true
          · rw [hne] at hF
            simp only [if_true] at hF
            cases hF
            exact ⟨r, ps, p, hmemF, hrn, hpn, hpl⟩
          · rw [Bool.not_eq_true] at hne
            rw [hne] at hF
            simp only [Bool.false_eq_true, if_false] at hF
            cases hqn : rulesByName rules hn with
            | none => rw [hqn] at hF; cases hF
            | some q =>
              rw [hqn] at hF
              cases hF
              exact ⟨r, ps, p, List.mem_cons_of_mem _ hmemF, hrn, hpn, hpl⟩

/-- `buildDict` is reversal: folding prepend-inserts over a list. -/
theorem buildDict_eq_reverse {α : Type} (l : List (String × α)) :
    buildDict l = l.reverse := by
  have h : ∀ (m : List (String × α)) (acc : List (String × α)),
      m.foldl (fun d p => dinsert d p.1 p.2) acc = m.reverse ++ acc := by
    intro m
    induction m with
    | nil => intro acc; simp
    | cons x xs ih =>
        intro acc
        obtain ⟨k, v⟩ := x
        simp only [List.foldl_cons, dinsert, List.reverse_cons,
          List.append_assoc, List.singleton_append]
        exact ih _
  simpa using h l []

/-- In a dict with pairwise-distinct keys, lookup finds a member binding. -/
theorem dlookup_eq_some {α : Type} (l : List (String × α)) (k : String) (v : α)
    (hnd : (l.map Prod.fst).Nodup) (hmem : (k, v) ∈ l) :
    dlookup l k = some v := by
  induction l with
  | nil => cases hmem
  | cons head rest ih =>
    obtain ⟨k', v'⟩ := head
    rw [dlookup]
    cases hmem with
    | head => rw [if_pos rfl]
    | tail _ hm =>
      rw [List.map_cons] at hnd
      have hnd' := List.nodup_cons.mp hnd
      have hk : k ≠ k' := by
        intro he
        subst he
        have hkm : k ∈ rest.map Prod.fst := List.mem_map.mpr ⟨(k, v), hm, rfl⟩
        exact hnd'.1 hkm
      rw [if_neg hk]
      exact ih hnd'.2 hm

/-- With pairwise-distinct rule names, `rules_by_name` lookup returns the
rule itself. -/
theorem rulesByName_eq_some (rules : List SecurityRule) (r : SecurityRule)
    (hnd : (rules.map SecurityRule.name).Nodup) (hr : r ∈ rules) :
    rulesByName rules r.name = some r := by
  unfold rulesByName
  rw [buildDict_eq_reverse]
  apply dlookup_eq_some
  · rw [List.map_reverse, List.nodup_reverse, List.map_map]
    simpa using hnd
  · rw [List.mem_reverse, List.mem_map]
    exact ⟨r, hr, rfl⟩

/-- The inner analyze loop over the row `execute` records for one rule and
its visited prefix collects exactly the prefix rules all of whose recorded
checks are true, in prefix order. -/
theorem analyzeChecksLoop_exec_row (rbn : String → Option SecurityRule)
    (rule : SecurityRule) (prev : List SecurityRule)
    (hrbn : ∀ p ∈ prev, rbn p.name = some p) :
    analyzeChecksLoop rbn (prev.map (fun p => (p.name, run_checks rule p))) =
      some (prev.filter (fun p => qualifies rule p)) := by
  induction prev with
  | nil => rfl
  | cons q rest ih =>
    rw [List.map_cons, analyzeChecksLoop]
    have hq := hrbn q (List.mem_cons_self _ _)
    have hrest : ∀ p ∈ rest, rbn p.name = some p :=
      fun p hp => hrbn p (List.mem_cons_of_mem _ hp)
    by_cases hqual : (run_checks rule q).all (fun c => c.2.1) = true
    · rw [if_pos hqual, hq, ih hrest]
      rw [List.filter_cons_of_pos]
      exact hqual
    · rw [if_neg hqual, ih hrest]
      rw [List.filter_cons_of_neg]
      exact hqual

/-- The analyze loop over the execute output computes `findingsSpec`,
provided every rule name of the list looks itself up. -/
theorem analyzeAux_executeAux (rules : List SecurityRule)
    (hnd : (rules.map SecurityRule.name).Nodup) :
    ∀ (rest prev : List SecurityRule), prev ++ rest = rules →
      analyzeAux (rulesByName rules) (executeAux prev rest) =
        some (findingsSpec prev rest) := by
  intro rest
  induction rest with
  | nil => intro prev _; rfl
  | cons r rest ih =>
    intro prev hsplit
    rw [executeAux, analyzeAux]
    have hprev : ∀ p ∈ prev, rulesByName rules p.name = some p := by
      intro p hp
      refine rulesByName_eq_some rules p hnd ?_
      rw [← hsplit]
      exact List.mem_append_left _ hp
    rw [analyzeChecksLoop_exec_row _ r prev hprev]
    dsimp only
    rw [ih (prev ++ [r]) (by simpa [List.append_assoc] using hsplit)]
    dsimp only
    rw [findingsSpec]
    by_cases he : (prev.filter (fun p => qualifies r p)).isEmpty = true
    · rw [he]
      simp only [if_true]
    · rw [Bool.not_eq_true] at he
      rw [he]
      simp only [Bool.false_eq_true, if_false]
      have hrr : rulesByName rules r.name = some r := by
        refine rulesByName_eq_some rules r hnd ?_
        rw [← hsplit]
        exact List.mem_append_right _ (List.mem_cons_self _ _)
      rw [hrr]

/-- Membership in `findingsSpec`: an entry is present iff its rule sits at a
position of the remaining list whose qualifying-prefix filter is the entry's
(non-empty) preceding list. -/
theorem findingsSpec_mem_iff :
    ∀ (rest prev : List SecurityRule) (x : SecurityRule) (ps : List SecurityRule),
      ((x, ps) ∈ findingsSpec prev rest ↔
        ∃ pre post, rest = pre ++ x :: post ∧
          ps = (prev ++ pre).filter (fun p => qualifies x p) ∧ ps ≠ []) := by
  intro rest
  induction rest with
  | nil =>
    intro prev x ps
    simp only [findingsSpec, List.not_mem_nil, false_iff]
    rintro ⟨pre, post, h, -, -⟩
    exact absurd h.symm (by simp)
  | cons r rest ih =>
    intro prev x ps
    rw [findingsSpec]
    by_cases hq : ((prev.filter (fun p => qualifies r p)).isEmpty = true)
    · rw [if_pos hq]
      rw [ih (prev ++ [r]) x ps]
      constructor
      · rintro ⟨pre, post, hdec, hps, hne⟩
        exact ⟨r :: pre, post, by rw [hdec, List.cons_append], by
          rw [hps]
          congr 1
          simp [List.append_assoc], hne⟩
      · rintro ⟨pre, post, hdec, hps, hne⟩
        cases pre with
        | nil =>
          simp only [List.nil_append, List.cons.injEq] at hdec
          obtain ⟨hx, hpost⟩ := hdec
          subst hx
          rw [List.append_nil] at hps
          rw [List.isEmpty_iff] at hq
          rw [hps] at hne
          exact absurd hq hne
        | cons r' pre' =>
          simp only [List.cons_append, List.cons.injEq] at hdec
          obtain ⟨hr, hrest⟩ := hdec
          subst hr
          refine ⟨pre', post, hrest, ?_, hne⟩
          rw [hps]
          congr 1
          simp [List.append_assoc]
    · rw [if_neg hq]
      rw [Bool.not_eq_true, List.isEmpty_eq_false_iff_exists_mem] at hq
      rw [List.mem_cons]
      rw [ih (prev ++ [r]) x ps]
      constructor
      · rintro (heq | ⟨pre, post, hdec, hps, hne⟩)
        · rw [Prod.mk.injEq] at heq
          obtain ⟨hx, hps⟩ := heq
          subst hx
          refine ⟨[], rest, rfl, ?_, ?_⟩
          · rw [hps, List.append_nil]
          · rw [hps]
            intro hnil
            obtain ⟨a, ha⟩ := hq
            rw [hnil] at ha
            cases ha
        · exact ⟨r :: pre, post, by rw [hdec, List.cons_append], by
            rw [hps]
            congr 1
            simp [List.append_assoc], hne⟩
      · rintro ⟨pre, post, hdec, hps, hne⟩
        cases pre with
        | nil =>
          simp only [List.nil_append, List.cons.injEq] at hdec
          obtain ⟨hx, hpost⟩ := hdec
          subst hx
          left
          rw [Prod.mk.injEq]
          exact ⟨rfl, by rw [hps, List.append_nil]⟩
        | cons r' pre' =>
          simp only [List.cons_append, List.cons.injEq] at hdec
          obtain ⟨hr, hrest⟩ := hdec
          subst hr
          right
          refine ⟨pre', post, hrest, ?_, hne⟩
          rw [hps]
          congr 1
          simp [List.append_assoc]

/-- C2: for rules with pairwise-distinct names, `analyze(execute(rules))`
succeeds and its findings (i) name only rules of the input (both the
shadowed rule and every preceding rule listed), and (ii) contain an entry
for a rule iff that rule sits at some position of the list whose strictly
preceding prefix has at least one rule with every recorded predicate true,
paired with the complete, order-preserving list of all such qualifying
preceding rules. -/
theorem shadowing_pipeline_characterization (rules : List SecurityRule)
    (hnd : (rules.map SecurityRule.name).Nodup) :
    ∃ F, Shadowing.analyze rules (Shadowing.execute rules) = some F ∧
      (∀ x ps, (x, ps) ∈ F → x ∈ rules ∧ ∀ p ∈ ps, p ∈ rules) ∧
      (∀ x ps, ((x, ps) ∈ F ↔
        ∃ pre post, rules = pre ++ x :: post ∧
          ps = pre.filter (fun p => qualifies x p) ∧ ps ≠ [])) := by
  refine ⟨findingsSpec [] rules, ?_, ?_, ?_⟩
  · exact analyzeAux_executeAux rules hnd rules [] rfl
  · intro x ps hmem
    obtain ⟨pre, post, hdec, hps, -⟩ := (findingsSpec_mem_iff rules [] x ps).mp hmem
    constructor
    · rw [hdec]
      exact List.mem_append_right _ (List.mem_cons_self _ _)
    · intro p hp
      rw [hps] at hp
      have hp' := List.mem_of_mem_filter hp
      rw [List.nil_append] at hp'
      rw [hdec]
      exact List.mem_append_left _ hp'
  · intro x ps
    have h := findingsSpec_mem_iff rules [] x ps
    simpa using h

/-- Witness for `shadowing_pipeline_characterization` on the concrete
three-rule list of the order-sensitivity scenario. -/
theorem shadowing_pipeline_characterization_witness :
    ∃ F, Shadowing.analyze [ruleR1, ruleR2, ruleR3]
        (Shadowing.execute [ruleR1, ruleR2, ruleR3]) = some F ∧
      (∀ x ps, (x, ps) ∈ F →
        x ∈ [ruleR1, ruleR2, ruleR3] ∧ ∀ p ∈ ps, p ∈ [ruleR1, ruleR2, ruleR3]) ∧
      (∀ x ps, ((x, ps) ∈ F ↔
        ∃ pre post, [ruleR1, ruleR2, ruleR3] = pre ++ x :: post ∧
          ps = pre.filter (fun p => qualifies x p) ∧ ps ≠ [])) :=
  shadowing_pipeline_characterization [ruleR1, ruleR2, ruleR3] (by decide)

/-- The member/top-level fold is error-absorbing. -/
theorem foldl_resolve_error (cfg : ResolverConfig) (fuel : Nat)
    (path : List String) (e : RErr) :
    ∀ ms : List String,
      ms.foldl
        (fun acc m =>
          match acc with
          | .error e => .error e
          | .ok (rs, c) =>
              match resolveName cfg fuel c path m with
              | .error e => .error e
              | .ok (r, c') => .ok (rs ++ r, c'))
        (.error e : Except RErr (List AddrObj × Cache)) = .error e := by
  intro ms
  induction ms with
  | nil => rfl
  | cons m rest ih =>
    rw [List.foldl_cons]
    exact ih

/-- The `extend` fold over member names equals the recursive
`resolveNames`, with the already-collected prefix prepended. -/
theorem foldl_resolve_eq (cfg : ResolverConfig) (fuel : Nat) (path : List String) :
    ∀ (ms : List String) (cache : Cache) (init : List AddrObj),
      ms.foldl
        (fun acc m =>
          match acc with
          | .error e => .error e
          | .ok (rs, c) =>
              match resolveName cfg fuel c path m with
              | .error e => .error e
              | .ok (r, c') => .ok (rs ++ r, c'))
        (.ok (init, cache) : Except RErr (List AddrObj × Cache)) =
      match resolveNames cfg fuel cache path ms with
      | .ok (rs, c) => .ok (init ++ rs, c)
      | .error e => .error e := by
  intro ms
  induction ms with
  | nil =>
    intro cache init
    rw [resolveNames]
    simp
  | cons m rest ih =>
    intro cache init
    rw [List.foldl_cons, resolveNames]
    cases hm : resolveName cfg fuel cache path m with
    | error e =>
      simp only [hm]
      exact foldl_resolve_error cfg fuel path e rest
    | ok rc =>
      obtain ⟨r, c⟩ := rc
      simp only [hm]
      rw [ih c (init ++ r)]
      cases hrest : resolveNames cfg fuel c path rest with
      | error e => simp only [hrest]
      | ok p =>
        obtain ⟨rs, c'⟩ := p
        simp only [hrest, List.append_assoc]

/-- The wildcard branch of `_resolve_name`: `any` contributes nothing and
leaves the cache untouched. -/
theorem resolveName_any (cfg : ResolverConfig) (fuel : Nat) (cache : Cache)
    (path : List String) :
    resolveName cfg (fuel + 1) cache path "any" = .ok ([], cache) := by
  rw [resolveName]
  rw [if_pos rfl]

/-- The cache-hit branch of `_resolve_name` (with an empty active path). -/
theorem resolveName_cached (cfg : ResolverConfig) (fuel : Nat) (cache : Cache)
    (name : String) (r : List AddrObj)
    (hname : name ≠ "any") (hhit : dlookup cache name = some r) :
    resolveName cfg (fuel + 1) cache [] name = .ok (r, cache) := by
  rw [resolveName]
  rw [if_neg hname, if_neg (List.not_mem_nil name), hhit]

/-- Lookup in the prepend-insert dict finds the inserted binding. -/
theorem dlookup_dinsert_self {α : Type} (c : List (String × α)) (k : String) (v : α) :
    dlookup (dinsert c k v) k = some v := by
  rw [dinsert, dlookup, if_pos rfl]

/-- Lookup of a different key passes through a prepend-insert. -/
theorem dlookup_dinsert_ne {α : Type} (c : List (String × α)) (k k' : String)
    (v : α) (h : k' ≠ k) :
    dlookup (dinsert c k v) k' = dlookup c k' := by
  rw [dinsert, dlookup, if_neg h]

/-- A successful dict lookup exhibits a member binding. -/
theorem dlookup_mem {α : Type} :
    ∀ (l : List (String × α)) (k : String) (v : α),
      dlookup l k = some v → (k, v) ∈ l := by
  intro l
  induction l with
  | nil => intro k v h; cases h
  | cons head rest ih =>
    intro k v h
    obtain ⟨k', v'⟩ := head
    rw [dlookup] at h
    by_cases hk : k = k'
    · rw [if_pos hk] at h
      cases h
      subst hk
      exact List.mem_cons_self _ _
    · rw [if_neg hk] at h
      exact List.mem_cons_of_mem _ (ih k v h)

/-- Inserting a previously-missing key preserves old bindings and adds only
that (off-path) key. -/
theorem dinsert_fresh_props (cache : Cache) (name : String) (v : List AddrObj)
    (path : List String) (hc : dlookup cache name = none) (hpath : name ∉ path) :
    CacheExt cache (dinsert cache name v) ∧
      NewKeysOffPath cache (dinsert cache name v) path := by
  constructor
  · intro k w hw
    have hkn : k ≠ name := by
      intro he
      subst he
      rw [hc] at hw
      cases hw
    rw [dlookup_dinsert_ne cache name k v hkn]
    exact hw
  · intro k h1 h2
    by_cases hkn : k = name
    · subst hkn
      exact hpath
    · rw [dlookup_dinsert_ne cache name k v hkn] at h2
      exact (h2 h1).elim

/-- Cache behaviour of successful resolver calls: the cache only grows,
every newly cached key is off the active path, and the resolved name ends up
cached (or is the never-cached wildcard with empty result). -/
theorem resolver_cache_props (cfg : ResolverConfig) :
    ∀ fuel : Nat,
      (∀ cache path name r c',
        resolveName cfg fuel cache path name = .ok (r, c') →
        CacheExt cache c' ∧ NewKeysOffPath cache c' path ∧
          (name = "any" ∧ r = [] ∧ c' = cache ∨
            name ≠ "any" ∧ dlookup c' name = some r)) ∧
      (∀ cache path names r c',
        resolveNames cfg fuel cache path names = .ok (r, c') →
        CacheExt cache c' ∧ NewKeysOffPath cache c' path) := by
  intro fuel
  induction fuel with
  | zero =>
    constructor
    · intro cache path name r c' h
      rw [resolveName] at h
      cases h
    · intro cache path names r c' h
      cases names with
      | nil =>
        rw [resolveNames] at h
        cases h
        exact ⟨fun k v hv => hv, fun k h1 h2 => (h2 h1).elim⟩
      | cons n rest =>
        rw [resolveNames, resolveName] at h
        cases h
  | succ fuel ih =>
    have hP : ∀ cache path name r c',
        resolveName cfg (fuel + 1) cache path name = .ok (r, c') →
        CacheExt cache c' ∧ NewKeysOffPath cache c' path ∧
          (name = "any" ∧ r = [] ∧ c' = cache ∨
            name ≠ "any" ∧ dlookup c' name = some r) := by
      intro cache path name r c' h
      rw [resolveName] at h
      by_cases hany : name = "any"
      · rw [if_pos hany] at h
        cases h
        exact ⟨fun k v hv => hv, fun k h1 h2 => (h2 h1).elim,
          Or.inl ⟨hany, rfl, rfl⟩⟩
      · rw [if_neg hany] at h
        by_cases hpath : name ∈ path
        · rw [if_pos hpath] at h
          cases h
        · rw [if_neg hpath] at h
          cases hc : dlookup cache name with
          | some r0 =>
            rw [hc] at h
            cases h
            exact ⟨fun k v hv => hv, fun k h1 h2 => (h2 h1).elim,
              Or.inr ⟨hany, hc⟩⟩
          | none =>
            rw [hc] at h
            cases hg : dlookup cfg.addressGroups name with
            | some members =>
              rw [hg] at h
              dsimp only at h
              rw [foldl_resolve_eq cfg fuel (name :: path) members cache []] at h
              cases hms : resolveNames cfg fuel cache (name :: path) members with
              | error e => rw [hms] at h; cases h
              | ok p =>
                obtain ⟨rs, c⟩ := p
                rw [hms] at h
                simp only [List.nil_append, Except.ok.injEq, Prod.mk.injEq] at h
                obtain ⟨hr, hc'⟩ := h
                subst hr
                subst hc'
                obtain ⟨hext, hoff⟩ := ih.2 cache (name :: path) members rs c hms
                refine ⟨?_, ?_, Or.inr ⟨hany, dlookup_dinsert_self c name rs⟩⟩
                · intro k v hv
                  have hkn : k ≠ name := by
                    intro he
                    subst he
                    rw [hc] at hv
                    cases hv
                  rw [dlookup_dinsert_ne c name k rs hkn]
                  exact hext k v hv
                · intro k h1 h2
                  by_cases hkn : k = name
                  · subst hkn
                    exact hpath
                  · rw [dlookup_dinsert_ne c name k rs hkn] at h2
                    have hk := hoff k h1 h2
                    intro hkp
                    exact hk (List.mem_cons_of_mem _ hkp)
            | none =>
              rw [hg] at h
              cases ho : dlookup cfg.addressObjects name with
              | some ao =>
                rw [ho] at h
                cases h
                obtain ⟨he1, he2⟩ := dinsert_fresh_props cache name [ao] path hc hpath
                exact ⟨he1, he2, Or.inr ⟨hany, dlookup_dinsert_self cache name [ao]⟩⟩
              | none =>
                rw [ho] at h
                cases hpn : parseIPv4Network name with
                | some net =>
                  rw [hpn] at h
                  cases h
                  obtain ⟨he1, he2⟩ :=
                    dinsert_fresh_props cache name [.ipNetwork name net] path hc hpath
                  exact ⟨he1, he2,
                    Or.inr ⟨hany, dlookup_dinsert_self cache name [.ipNetwork name net]⟩⟩
                | none =>
                  rw [hpn] at h
                  cases hrg : mkAddressObjectIPRange name name with
                  | ok a =>
                    rw [hrg] at h
                    cases h
                    obtain ⟨he1, he2⟩ :=
                      dinsert_fresh_props cache name [a] path hc hpath
                    exact ⟨he1, he2,
                      Or.inr ⟨hany, dlookup_dinsert_self cache name [a]⟩⟩
                  | error e =>
                    rw [hrg] at h
                    cases h
    refine ⟨hP, ?_⟩
    intro cache path names r c' h
    induction names generalizing cache r c' with
    | nil =>
      rw [resolveNames] at h
      cases h
      exact ⟨fun k v hv => hv, fun k h1 h2 => (h2 h1).elim⟩
    | cons n rest ihn =>
      rw [resolveNames] at h
      cases hn : resolveName cfg (fuel + 1) cache path n with
      | error e => rw [hn] at h; cases h
      | ok p =>
        obtain ⟨r0, c0⟩ := p
        rw [hn] at h
        dsimp only at h
        cases hrest : resolveNames cfg (fuel + 1) c0 path rest with
        | error e => rw [hrest] at h; cases h
        | ok q =>
          obtain ⟨r1, c1⟩ := q
          rw [hrest] at h
          dsimp only at h
          simp only [Except.ok.injEq, Prod.mk.injEq] at h
          obtain ⟨hr, hc'⟩ := h
          subst hr
          subst hc'
          obtain ⟨hext0, hoff0, -⟩ := hP cache path n r0 c0 hn
          obtain ⟨hext1, hoff1⟩ := ihn c0 r1 c1 hrest
          refine ⟨fun k v hv => hext1 k v (hext0 k v hv), ?_⟩
          intro k h1 h2
          cases hmid : dlookup c0 k with
          | some v =>
            refine hoff0 k h1 ?_
            rw [hmid]
            intro hx
            cases hx
          | none => exact hoff1 k hmid h2

/-- Re-running `resolveNames` (empty path, as both `resolve` loops use at
top level) against the cache produced by a successful first run returns the
same results and leaves the cache unchanged. -/
theorem resolveNames_repeat (cfg : ResolverConfig) (fuel : Nat)
    (hfuel : fuel ≠ 0) :
    ∀ (names : List String) (cache c₁ : Cache) (r : List AddrObj),
      resolveNames cfg fuel cache [] names = .ok (r, c₁) →
      resolveNames cfg fuel c₁ [] names = .ok (r, c₁) := by
  obtain ⟨f, rfl⟩ : ∃ f, fuel = f + 1 := ⟨fuel - 1, by omega⟩
  intro names
  induction names with
  | nil =>
    intro cache c₁ r h
    rw [resolveNames] at h
    cases h
    rfl
  | cons n rest ihn =>
    intro cache c₁ r h
    rw [resolveNames] at h
    cases hn : resolveName cfg (f + 1) cache [] n with
    | error e => rw [hn] at h; cases h
    | ok p =>
      obtain ⟨r0, c0⟩ := p
      rw [hn] at h
      dsimp only at h
      cases hrest : resolveNames cfg (f + 1) c0 [] rest with
      | error e => rw [hrest] at h; cases h
      | ok q =>
        obtain ⟨r1, c1'⟩ := q
        rw [hrest] at h
        dsimp only at h
        simp only [Except.ok.injEq, Prod.mk.injEq] at h
        obtain ⟨hr, hc'⟩ := h
        subst hr
        subst hc'
        obtain ⟨hext0, -, hco⟩ := (resolver_cache_props cfg (f + 1)).1 cache [] n r0 c0 hn
        obtain ⟨hext1, -⟩ := (resolver_cache_props cfg (f + 1)).2 c0 [] rest r1 c1' hrest
        have hsecond : resolveName cfg (f + 1) c1' [] n = .ok (r0, c1') := by
          cases hco with
          | inl hany =>
            obtain ⟨hn_any, hr0, hc0⟩ := hany
            subst hn_any
            rw [hr0]
            exact resolveName_any cfg f c1' []
          | inr hcached =>
            obtain ⟨hne, hhit⟩ := hcached
            exact resolveName_cached cfg f c1' n r0 hne (hext1 n r0 hhit)
        rw [resolveNames, hsecond]
        dsimp only
        rw [ihn c0 c1' r1 hrest]

/-- C7: resolving the same name list twice on one resolver instance (the
second call starting from the cache the first call produced) yields the
identical result list and leaves the cache unchanged: caching never changes
the returned value. -/
theorem resolver_cache_consistency (cfg : ResolverConfig) (cache c₁ : Cache)
    (names : List String) (r : List AddrObj)
    (h : Resolver.resolveSt cfg cache names = .ok (r, c₁)) :
    Resolver.resolveSt cfg c₁ names = .ok (r, c₁) := by
  unfold Resolver.resolveSt at h ⊢
  rw [foldl_resolve_eq cfg (cfg.addressGroups.length + 2) [] names cache []] at h
  rw [foldl_resolve_eq cfg (cfg.addressGroups.length + 2) [] names c₁ []]
  cases hres : resolveNames cfg (cfg.addressGroups.length + 2) cache [] names with
  | error e => rw [hres] at h; cases h
  | ok p =>
    obtain ⟨rs, c⟩ := p
    rw [hres] at h
    simp only [List.nil_append, Except.ok.injEq, Prod.mk.injEq] at h
    obtain ⟨hr, hc⟩ := h
    subst hr
    subst hc
    have hsec := resolveNames_repeat cfg (cfg.addressGroups.length + 2)
      (by omega) names cache c rs hres
    rw [hsec]
    simp [List.nil_append]

/-- Witness for `resolver_cache_consistency` on the diamond configuration:
the second resolution of `A` is served from the populated cache. -/
theorem resolver_cache_consistency_witness :
    Resolver.resolveSt cfgDiamond cacheDiamond ["A"] =
      .ok ([objD, objD], cacheDiamond) :=
  resolver_cache_consistency cfgDiamond [] cacheDiamond ["A"] [objD, objD]
    (by decide)

/-- With a rank-decreasing (acyclic) group graph, no resolver call ever
returns the circular-dependency error, as long as every name on the entered
path out-ranks the name being resolved (vacuously true for the empty path
used at top level): the path check can only fire on a name that would close
a rank-decreasing cycle. -/
theorem resolver_acyclic_no_circular (cfg : ResolverConfig)
    (rank : String → Nat) (hrd : RankDecreasing cfg rank) :
    ∀ fuel : Nat,
      (∀ cache path name, (∀ p ∈ path, rank name < rank p) →
        resultIsCircular (resolveName cfg fuel cache path name) = false) ∧
      (∀ names cache path, (∀ m ∈ names, ∀ p ∈ path, rank m < rank p) →
        resultIsCircular (resolveNames cfg fuel cache path names) = false) := by
  intro fuel
  induction fuel with
  | zero =>
    constructor
    · intro cache path name _
      rw [resolveName]
      rfl
    · intro names cache path _
      cases names with
      | nil => rw [resolveNames]; rfl
      | cons n rest => rw [resolveNames, resolveName]; rfl
  | succ fuel ih =>
    have hP : ∀ cache path name, (∀ p ∈ path, rank name < rank p) →
        resultIsCircular (resolveName cfg (fuel + 1) cache path name) = false := by
      intro cache path name hpathrk
      rw [resolveName]
      by_cases hany : name = "any"
      · rw [if_pos hany]
        rfl
      · rw [if_neg hany]
        have hnp : name ∉ path := by
          intro hmem
          exact absurd (hpathrk name hmem) (lt_irrefl _)
        rw [if_neg hnp]
        cases hc : dlookup cache name with
        | some r0 => rfl
        | none =>
          cases hg : dlookup cfg.addressGroups name with
          | some members =>
            dsimp only
            rw [foldl_resolve_eq cfg fuel (name :: path) members cache []]
            have hmem : (name, members) ∈ cfg.addressGroups :=
              dlookup_mem _ _ _ hg
            have hms : ∀ m ∈ members, ∀ p ∈ name :: path, rank m < rank p := by
              intro m hm p hp
              have h1 : rank m < rank name := hrd (name, members) hmem m hm
              cases hp with
              | head => exact h1
              | tail _ hp2 => exact lt_trans h1 (hpathrk p hp2)
            have hq := ih.2 members cache (name :: path) hms
            cases hres : resolveNames cfg fuel cache (name :: path) members with
            | error e =>
              rw [hres] at hq
              exact hq
            | ok p =>
              obtain ⟨rs, c⟩ := p
              rfl
          | none =>
            cases ho : dlookup cfg.addressObjects name with
            | some ao => rfl
            | none =>
              cases hpn : parseIPv4Network name with
              | some net => rfl
              | none =>
                cases hrg : mkAddressObjectIPRange name name with
                | ok a => rfl
                | error e => rfl
    refine ⟨hP, ?_⟩
    intro names
    induction names with
    | nil =>
      intro cache path _
      rw [resolveNames]
      rfl
    | cons n rest ihn =>
      intro cache path hns
      rw [resolveNames]
      have hn1 := hP cache path n (hns n (List.mem_cons_self _ _))
      cases hn : resolveName cfg (fuel + 1) cache path n with
      | error e =>
        rw [hn] at hn1
        exact hn1
      | ok p =>
        obtain ⟨r0, c0⟩ := p
        dsimp only
        have hrest := ihn c0 path (fun m hm => hns m (List.mem_cons_of_mem _ hm))
        cases hres : resolveNames cfg (fuel + 1) c0 path rest with
        | error e =>
          rw [hres] at hrest
          exact hrest
        | ok q =>
          obtain ⟨r1, c1⟩ := q
          rfl

/-- C5: (i) on the cyclic configuration `A → B → A`, `resolve({"A"})` raises
the circular-dependency error and its message mentions both `A` and `B`;
(ii) on any group graph that is acyclic (witnessed by a rank function), no
resolution ever raises a cycle error, because the recursion tracks the
current path rather than a global visited set; (iii) concretely, the diamond
graph resolves `A` successfully, reaching `D` independently through both
paths. -/
theorem resolver_cycle_detection_and_diamond (cfg : ResolverConfig)
    (rank : String → Nat) (names : List String)
    (hrd : RankDecreasing cfg rank) :
    (∃ msg, Resolver.resolve cfgCycle ["A"] = .error (.circular msg) ∧
      containsSub msg "A" = true ∧ containsSub msg "B" = true) ∧
    resultIsCircular (Resolver.resolve cfg names) = false ∧
    Resolver.resolve cfgDiamond ["A"] = .ok [objD, objD] := by
  refine ⟨⟨"Circular dependency detected in address group resolution: A -> B -> A",
    by decide, by decide, by decide⟩, ?_, by decide⟩
  unfold Resolver.resolve Resolver.resolveSt
  rw [foldl_resolve_eq cfg (cfg.addressGroups.length + 2) [] names [] []]
  have hq := (resolver_acyclic_no_circular cfg rank hrd
      (cfg.addressGroups.length + 2)).2 names [] []
    (fun m _ p hp => absurd hp (List.not_mem_nil p))
  cases hres : resolveNames cfg (cfg.addressGroups.length + 2) [] [] names with
  | error e =>
    rw [hres] at hq
    exact hq
  | ok p =>
    obtain ⟨rs, c⟩ := p
    rfl

/-- Witness for `resolver_cycle_detection_and_diamond` on the diamond
configuration with its explicit rank function. -/
theorem resolver_cycle_detection_and_diamond_witness :
    resultIsCircular (Resolver.resolve cfgDiamond ["A"]) = false :=
  (resolver_cycle_detection_and_diamond cfgDiamond diamondRank ["A"]
    (by decide)).2.1

/-- C6: the per-name resolution order of `Resolver.resolve`.  With the name
not on the active path and not yet cached: (1) the wildcard `any`
contributes nothing — in particular resolving the name set containing only
`any` returns the empty list; (2) a known address-group name is expanded
recursively over its members (cached afterwards); (3) otherwise a known
address-object name yields that single object; (4) otherwise the literal is
parsed as an IPv4 network, then as a dash-separated IP range; (5) if
everything fails the call fails with the unknown-reference error. -/
theorem resolver_resolution_order (cfg : ResolverConfig) (fuel : Nat)
    (cache : Cache) (path : List String) (name : String)
    (hpath : name ∉ path) (hcache : dlookup cache name = none) :
    (resolveName cfg (fuel + 1) cache path "any" = .ok ([], cache)) ∧
    (Resolver.resolve cfg ["any"] = .ok []) ∧
    (∀ members, name ≠ "any" → dlookup cfg.addressGroups name = some members →
      resolveName cfg (fuel + 1) cache path name =
        match resolveNames cfg fuel cache (name :: path) members with
        | .ok (rs, c) => .ok (rs, dinsert c name rs)
        | .error e => .error e) ∧
    (∀ ao, name ≠ "any" → dlookup cfg.addressGroups name = none →
      dlookup cfg.addressObjects name = some ao →
      resolveName cfg (fuel + 1) cache path name =
        .ok ([ao], dinsert cache name [ao])) ∧
    (∀ net, name ≠ "any" → dlookup cfg.addressGroups name = none →
      dlookup cfg.addressObjects name = none →
      parseIPv4Network name = some net →
      resolveName cfg (fuel + 1) cache path name =
        .ok ([.ipNetwork name net], dinsert cache name [.ipNetwork name net])) ∧
    (∀ a, name ≠ "any" → dlookup cfg.addressGroups name = none →
      dlookup cfg.addressObjects name = none →
      parseIPv4Network name = none →
      mkAddressObjectIPRange name name = .ok a →
      resolveName cfg (fuel + 1) cache path name =
        .ok ([a], dinsert cache name [a])) ∧
    (∀ e, name ≠ "any" → dlookup cfg.addressGroups name = none →
      dlookup cfg.addressObjects name = none →
      parseIPv4Network name = none →
      mkAddressObjectIPRange name name = .error e →
      resolveName cfg (fuel + 1) cache path name =
        .error (.unknown ("Unknown address object/group: " ++ name))) := by
  refine ⟨resolveName_any cfg fuel cache path, ?_, ?_, ?_, ?_, ?_, ?_⟩
  · unfold Resolver.resolve Resolver.resolveSt
    rw [foldl_resolve_eq cfg (cfg.addressGroups.length + 2) [] ["any"] [] []]
    rw [resolveNames]
    have hany : resolveName cfg (cfg.addressGroups.length + 2) [] [] "any" =
        .ok ([], []) :=
      resolveName_any cfg (cfg.addressGroups.length + 1) [] []
    rw [hany]
    dsimp only
    rw [resolveNames]
    rfl
  · intro members hne hgrp
    rw [resolveName, if_neg hne, if_neg hpath, hcache]
    dsimp only
    rw [hgrp]
    dsimp only
    rw [foldl_resolve_eq cfg fuel (name :: path) members cache []]
    cases hres : resolveNames cfg fuel cache (name :: path) members with
    | error e => rfl
    | ok p =>
      obtain ⟨rs, c⟩ := p
      simp
  · intro ao hne hgrp hobj
    rw [resolveName, if_neg hne, if_neg hpath, hcache]
    dsimp only
    rw [hgrp]
    dsimp only
    rw [hobj]
  · intro net hne hgrp hobj hnet
    rw [resolveName, if_neg hne, if_neg hpath, hcache]
    dsimp only
    rw [hgrp]
    dsimp only
    rw [hobj]
    dsimp only
    rw [hnet]
  · intro a hne hgrp hobj hnet hrng
    rw [resolveName, if_neg hne, if_neg hpath, hcache]
    dsimp only
    rw [hgrp]
    dsimp only
    rw [hobj]
    dsimp only
    rw [hnet]
    dsimp only
    rw [hrng]
  · intro e hne hgrp hobj hnet hrng
    rw [resolveName, if_neg hne, if_neg hpath, hcache]
    dsimp only
    rw [hgrp]
    dsimp only
    rw [hobj]
    dsimp only
    rw [hnet]
    dsimp only
    rw [hrng]

/-- Witness for `resolver_resolution_order` at the object name `D` of the
diamond configuration. -/
theorem resolver_resolution_order_witness :
    Resolver.resolve cfgDiamond ["any"] = .ok [] :=
  (resolver_resolution_order cfgDiamond 0 [] [] "D"
    (List.not_mem_nil "D") rfl).2.1

/-- The advanced-check loop returns some result whose boolean is exactly
"every non-FQDN entry of the rule's resolved list is covered by some
non-FQDN entry of the preceding resolved list" (vacuously true when all
entries are FQDNs). -/
theorem coverageLoop_bool (pres : List AddrObj) :
    ∀ (rres : List AddrObj) (total fqdnCount : Nat),
      ∃ msg, coverageLoop (some pres) total rres fqdnCount =
        some (rres.all (fun a => a.isFqdn ||
          pres.any (fun b => !b.isFqdn && a.is_covered_by b)), msg) := by
  intro rres
  induction rres with
  | nil =>
    intro total fqdnCount
    by_cases h : fqdnCount = total
    · refine ⟨"FQDN destinations excluded from coverage check", ?_⟩
      rw [coverageLoop, if_pos h]
      rfl
    · refine ⟨"All non-FQDN destination addresses are covered by preceding rule(s)", ?_⟩
      rw [coverageLoop, if_neg h]
      rfl
  | cons a rest ih =>
    intro total fqdnCount
    rw [coverageLoop]
    by_cases hf : a.isFqdn = true
    · rw [if_pos hf]
      obtain ⟨msg, hm⟩ := ih total (fqdnCount + 1)
      refine ⟨msg, ?_⟩
      rw [hm]
      simp [List.all_cons, hf]
    · rw [if_neg hf]
      by_cases hc : pres.any (fun b => !b.isFqdn && a.is_covered_by b) = true
      · rw [if_pos hc]
        obtain ⟨msg, hm⟩ := ih total fqdnCount
        refine ⟨msg, ?_⟩
        rw [hm]
        simp [List.all_cons, hf, hc]
      · rw [if_neg hc]
        refine ⟨"Destination " ++ a.name ++ " (" ++ a.valueStr
          ++ ") not covered by preceding rule", ?_⟩
        have hf' : a.isFqdn = false := by rwa [Bool.not_eq_true] at hf
        have hc' : pres.any (fun b => !b.isFqdn && a.is_covered_by b) = false := by
          rwa [Bool.not_eq_true] at hc
        simp [List.all_cons, hf', hc']

/-- C9: on rules whose raw destination sets are unequal and free of the
wildcard, the advanced destination predicate returns covered = true iff
every non-FQDN resolved address of the rule is `is_covered_by` some non-FQDN
resolved address of the preceding rule (so all-FQDN rule lists are vacuously
covered, and FQDN entries never take part in the containment test); and an
FQDN address object is covered only by an FQDN with the identical
(case-folded) value. -/
theorem advanced_destination_check_characterization
    (rule preceding_rule : AdvancedSecurityRule) (rres pres : List AddrObj)
    (h1 : rule.destination_addresses ≠ preceding_rule.destination_addresses)
    (h2 : AnyObj ∉ preceding_rule.destination_addresses)
    (h3 : AnyObj ∉ rule.destination_addresses)
    (h4 : rule.resolved_destination_addresses = some rres)
    (h5 : preceding_rule.resolved_destination_addresses = some pres) :
    (∃ msg, check_destination_addresses_by_ip rule preceding_rule =
      some (rres.all (fun a => a.isFqdn ||
        pres.any (fun b => !b.isFqdn && a.is_covered_by b)), msg)) ∧
    (∀ n v x, (AddrObj.fqdn n v).is_covered_by x = true ↔
      ∃ n' v', x = .fqdn n' v' ∧ v.toLower = v'.toLower) := by
  constructor
  · unfold check_destination_addresses_by_ip
    rw [if_neg h1, if_neg h2, if_neg h3, h4]
    dsimp only
    rw [h5]
    exact coverageLoop_bool pres rres rres.length 0
  · intro n v x
    cases x with
    | fqdn n' v' =>
      constructor
      · intro h
        refine ⟨n', v', rfl, ?_⟩
        rw [AddrObj.is_covered_by] at h
        exact beq_iff_eq.mp h
      · rintro ⟨n'', v'', hx, hv⟩
        cases hx
        rw [AddrObj.is_covered_by]
        exact beq_iff_eq.mpr hv
    | ipNetwork n' net =>
      constructor
      · intro h
        simp [AddrObj.is_covered_by] at h
      · rintro ⟨n'', v'', hx, -⟩
        cases hx
    | ipRange n' lo hi =>
      constructor
      · intro h
        simp [AddrObj.is_covered_by] at h
      · rintro ⟨n'', v'', hx, -⟩
        cases hx

/-- Witness for `advanced_destination_check_characterization` on two
concrete advanced rules whose resolved networks are in containment. -/
theorem advanced_destination_check_characterization_witness :
    (∃ msg, check_destination_addresses_by_ip advRule advPreceding =
      some (([AddrObj.ipNetwork "o1" ⟨167772160, 32⟩]).all (fun a => a.isFqdn ||
        ([AddrObj.ipNetwork "o2" ⟨167772160, 24⟩]).any
          (fun b => !b.isFqdn && a.is_covered_by b)), msg)) ∧
    (∀ n v x, (AddrObj.fqdn n v).is_covered_by x = true ↔
      ∃ n' v', x = .fqdn n' v' ∧ v.toLower = v'.toLower) :=
  advanced_destination_check_characterization advRule advPreceding
    [.ipNetwork "o1" ⟨167772160, 32⟩] [.ipNetwork "o2" ⟨167772160, 24⟩]
    (by decide) (by decide) (by decide) rfl rfl

/-- In a dict with pairwise-distinct keys, a key determines its value. -/
theorem assoc_nodup_val_unique {α : Type} :
    ∀ (l : List (String × α)) (k : String) (a b : α),
      (l.map Prod.fst).Nodup → (k, a) ∈ l → (k, b) ∈ l → a = b := by
  intro l
  induction l with
  | nil => intro k a b _ ha; cases ha
  | cons head rest ih =>
    intro k a b hnd ha hb
    obtain ⟨k0, v0⟩ := head
    rw [List.map_cons] at hnd
    have hnd' := List.nodup_cons.mp hnd
    rcases List.mem_cons.mp ha with hha | hha
    · rw [Prod.mk.injEq] at hha
      obtain ⟨hk, hv⟩ := hha
      subst hk
      rcases List.mem_cons.mp hb with hhb | hhb
      · rw [Prod.mk.injEq] at hhb
        rw [hv, hhb.2]
      · exact absurd (List.mem_map.mpr ⟨(k, b), hhb, rfl⟩) hnd'.1
    · rcases List.mem_cons.mp hb with hhb | hhb
      · rw [Prod.mk.injEq] at hhb
        obtain ⟨hk, hv⟩ := hhb
        subst hk
        exact absurd (List.mem_map.mpr ⟨(k, a), hha, rfl⟩) hnd'.1
      · exact ih k a b hnd'.2 hha hhb

/-- `rules_by_name` only returns a rule under its own name. -/
theorem rulesByName_name (rules : List SecurityRule) (k : String)
    (r : SecurityRule) (h : rulesByName rules k = some r) : r.name = k := by
  unfold rulesByName at h
  have hm := dlookup_mem _ _ _ h
  rw [buildDict_eq_reverse, List.mem_reverse, List.mem_map] at hm
  obtain ⟨a, -, ha⟩ := hm
  rw [Prod.mk.injEq] at ha
  obtain ⟨h1, h2⟩ := ha
  rw [← h2]
  exact h1

/-- Membership in the inner analyze loop's output characterised: a rule is
collected iff some recorded entry has all results true and looks up to it. -/
theorem analyzeChecksLoop_mem_iff (rbn : String → Option SecurityRule) :
    ∀ (rres : PrecedingRulesOutputs) (l : List SecurityRule),
      analyzeChecksLoop rbn rres = some l →
      ∀ p, (p ∈ l ↔ ∃ k cs, (k, cs) ∈ rres ∧
        cs.all (fun c => c.2.1) = true ∧ rbn k = some p) := by
  intro rres
  induction rres with
  | nil =>
    intro l hl p
    rw [analyzeChecksLoop] at hl
    cases hl
    simp
  | cons head rest ih =>
    obtain ⟨k0, cs0⟩ := head
    intro l hl p
    rw [analyzeChecksLoop] at hl
    by_cases hall : cs0.all (fun c => c.2.1) = true
    · rw [hall] at hl
      simp only [if_pos] at hl
      cases hq : rbn k0 with
      | none => rw [hq] at hl; cases hl
      | some q =>
        rw [hq] at hl
        cases hrec : analyzeChecksLoop rbn rest with
        | none => rw [hrec] at hl; cases hl
        | some l' =>
          rw [hrec] at hl
          cases hl
          constructor
          · intro hpl
            rcases List.mem_cons.mp hpl with hpq | hpl'
            · subst hpq
              exact ⟨k0, cs0, List.mem_cons_self _ _, hall, hq⟩
            · obtain ⟨k, cs, hmem, hcs, hk⟩ := (ih l' hrec p).mp hpl'
              exact ⟨k, cs, List.mem_cons_of_mem _ hmem, hcs, hk⟩
          · rintro ⟨k, cs, hmem, hcs, hk⟩
            rcases List.mem_cons.mp hmem with hhead | htail
            · rw [Prod.mk.injEq] at hhead
              obtain ⟨hk0, hcs0⟩ := hhead
              subst hk0
              rw [hq] at hk
              cases hk
              exact List.mem_cons_self _ _
            · exact List.mem_cons_of_mem _ ((ih l' hrec p).mpr ⟨k, cs, htail, hcs, hk⟩)
    · rw [Bool.not_eq_true] at hall
      rw [hall] at hl
      simp only [Bool.false_eq_true, if_false] at hl
      rw [ih l hl p]
      constructor
      · rintro ⟨k, cs, hmem, hcs, hk⟩
        exact ⟨k, cs, List.mem_cons_of_mem _ hmem, hcs, hk⟩
      · rintro ⟨k, cs, hmem, hcs, hk⟩
        rcases List.mem_cons.mp hmem with hhead | htail
        · rw [Prod.mk.injEq] at hhead
          obtain ⟨hk0, hcs0⟩ := hhead
          subst hcs0
          rw [hall] at hcs
          cases hcs
        · exact ⟨k, cs, htail, hcs, hk⟩

/-- Every analysis-results entry originates from an execute-results entry:
its rule is the looked-up key and its preceding list is the (non-empty)
inner-loop output for that entry. -/
theorem analyzeAux_mem_entry (rbn : String → Option SecurityRule) :
    ∀ (results : ExecuteResults) (F : AnalysisResults),
      analyzeAux rbn results = some F →
      ∀ r ps, (r, ps) ∈ F →
        ∃ k kres, (k, kres) ∈ results ∧ rbn k = some r ∧
          analyzeChecksLoop rbn kres = some ps ∧ ps ≠ [] := by
  intro results
  induction results with
  | nil =>
    intro F hF r ps hmem
    rw [analyzeAux] at hF
    cases hF
    cases hmem
  | cons head rest ih =>
    intro F hF r ps hmem
    obtain ⟨k0, res0⟩ := head
    rw [analyzeAux] at hF
    cases hcl : analyzeChecksLoop rbn res0 with
    | none => rw [hcl] at hF; cases hF
    | some l0 =>
      rw [hcl] at hF
      cases har : analyzeAux rbn rest with
      | none => rw [har] at hF; cases hF
      | some F' =>
        rw [har] at hF
        dsimp only at hF
        by_cases he : l0.isEmpty = true
        · rw [he] at hF
          simp only [if_true] at hF
          cases hF
          obtain ⟨k, kres, hkm, hrbn, hloop, hne⟩ := ih F har r ps hmem
          exact ⟨k, kres, List.mem_cons_of_mem _ hkm, hrbn, hloop, hne⟩
        · rw [Bool.not_eq_true] at he
          rw [he] at hF
          simp only [Bool.false_eq_true, if_false] at hF
          cases hq : rbn k0 with
          | none => rw [hq] at hF; cases hF
          | some r0 =>
            rw [hq] at hF
            cases hF
            rcases List.mem_cons.mp hmem with hhead | htail
            · rw [Prod.mk.injEq] at hhead
              obtain ⟨hr0, hl0⟩ := hhead
              subst hr0
              subst hl0
              refine ⟨k0, res0, List.mem_cons_self _ _, hq, hcl, ?_⟩
              intro hnil
              rw [hnil] at he
              cases he
            · obtain ⟨k, kres, hkm, hrbn, hloop, hne⟩ := ih F' har r ps htail
              exact ⟨k, kres, List.mem_cons_of_mem _ hkm, hrbn, hloop, hne⟩

/-- When `analyze` succeeds, the inner loop succeeded for every
execute-results entry. -/
theorem analyzeAux_loop_some (rbn : String → Option SecurityRule) :
    ∀ (results : ExecuteResults) (F : AnalysisResults),
      analyzeAux rbn results = some F →
      ∀ k kres, (k, kres) ∈ results →
        ∃ l, analyzeChecksLoop rbn kres = some l := by
  intro results
  induction results with
  | nil => intro F _ k kres hmem; cases hmem
  | cons head rest ih =>
    intro F hF k kres hmem
    obtain ⟨k0, res0⟩ := head
    rw [analyzeAux] at hF
    cases hcl : analyzeChecksLoop rbn res0 with
    | none => rw [hcl] at hF; cases hF
    | some l0 =>
      rw [hcl] at hF
      cases har : analyzeAux rbn rest with
      | none => rw [har] at hF; cases hF
      | some F' =>
        cases hmem with
        | head => exact ⟨l0, hcl⟩
        | tail _ htail => exact ih F' har k kres htail

/-- When `analyze` succeeds and an entry's inner loop collected a non-empty
list, the entry's rule was looked up successfully and is reported with
exactly that list. -/
theorem analyzeAux_nonempty_reported (rbn : String → Option SecurityRule) :
    ∀ (results : ExecuteResults) (F : AnalysisResults),
      analyzeAux rbn results = some F →
      ∀ k kres, (k, kres) ∈ results →
        ∀ l, analyzeChecksLoop rbn kres = some l → l ≠ [] →
          ∃ r, rbn k = some r ∧ (r, l) ∈ F := by
  intro results
  induction results with
  | nil => intro F _ k kres hmem; cases hmem
  | cons head rest ih =>
    intro F hF k kres hmem l hloop hne
    obtain ⟨k0, res0⟩ := head
    rw [analyzeAux] at hF
    cases hcl : analyzeChecksLoop rbn res0 with
    | none => rw [hcl] at hF; cases hF
    | some l0 =>
      rw [hcl] at hF
      cases har : analyzeAux rbn rest with
      | none => rw [har] at hF; cases hF
      | some F' =>
        rw [har] at hF
        dsimp only at hF
        cases hmem with
        | head =>
          rw [hloop] at hcl
          cases hcl
          have he : l.isEmpty = false := by
            cases l
            · exact absurd rfl hne
            · rfl
          rw [he] at hF
          simp only [Bool.false_eq_true, if_false] at hF
          cases hq : rbn k with
          | none => rw [hq] at hF; cases hF
          | some r0 =>
            rw [hq] at hF
            cases hF
            exact ⟨r0, rfl, List.mem_cons_self _ _⟩
        | tail _ htail =>
          obtain ⟨r, hrbn, hmemF⟩ := ih F' har k kres htail l hloop hne
          by_cases he : l0.isEmpty = true
          · rw [he] at hF
            simp only [if_true] at hF
            cases hF
            exact ⟨r, hrbn, hmemF⟩
          · rw [Bool.not_eq_true] at he
            rw [he] at hF
            simp only [Bool.false_eq_true, if_false] at hF
            cases hq : rbn k0 with
            | none => rw [hq] at hF; cases hF
            | some r0 =>
              rw [hq] at hF
              cases hF
              exact ⟨r, hrbn, List.mem_cons_of_mem _ hmemF⟩

/-- C1 (amended): in `analyze`, a (rule, preceding) pair — its names keyed
uniquely, as Python dicts guarantee — is reported as a full-shadowing pair
iff every predicate result *present* in its recorded result map is true:
results absent from the map (e.g. omitted because the predicate raised) do
not disqualify the pair, and a pair with an empty recorded result map is
always reported. -/
theorem analyze_missing_results_do_not_disqualify
    (rules : List SecurityRule) (results : ExecuteResults) (F : AnalysisResults)
    (rn : String) (rres : PrecedingRulesOutputs) (pn : String) (checks : ChecksOutputs)
    (hndr : (results.map Prod.fst).Nodup)
    (hndp : (rres.map Prod.fst).Nodup)
    (hF : Shadowing.analyze rules results = some F)
    (hr : (rn, rres) ∈ results)
    (hp : (pn, checks) ∈ rres) :
    (∃ r ps p, (r, ps) ∈ F ∧ rulesByName rules rn = some r ∧
        rulesByName rules pn = some p ∧ p ∈ ps) ↔
      checks.all (fun c => c.2.1) = true := by
  unfold Shadowing.analyze at hF
  constructor
  · rintro ⟨r, ps, p, hFmem, hrn, hpn, hpmem⟩
    obtain ⟨k, kres, hkmem, hkrbn, hkloop, -⟩ :=
      analyzeAux_mem_entry (rulesByName rules) results F hF r ps hFmem
    have hkrn : k = rn := by
      rw [← rulesByName_name rules k r hkrbn, rulesByName_name rules rn r hrn]
    have hkres : kres = rres :=
      assoc_nodup_val_unique results rn kres rres hndr (hkrn ▸ hkmem) hr
    rw [hkres] at hkloop
    obtain ⟨k', cs, hmem', hcs, hk'⟩ :=
      (analyzeChecksLoop_mem_iff (rulesByName rules) rres ps hkloop p).mp hpmem
    have hk'pn : k' = pn := by
      rw [← rulesByName_name rules k' p hk', rulesByName_name rules pn p hpn]
    have hcseq : cs = checks :=
      assoc_nodup_val_unique rres pn cs checks hndp (hk'pn ▸ hmem') hp
    rw [← hcseq]
    exact hcs
  · intro hall
    obtain ⟨l, hl⟩ := analyzeAux_loop_some (rulesByName rules) results F hF rn rres hr
    obtain ⟨p, hpn, hpl⟩ :=
      analyzeChecksLoop_reports_all_true (rulesByName rules) rres l pn checks hl hp hall
    have hlne : l ≠ [] := by
      intro he
      rw [he] at hpl
      cases hpl
    obtain ⟨r, hrn, hFmem⟩ :=
      analyzeAux_nonempty_reported (rulesByName rules) results F hF rn rres hr l hl hlne
    exact ⟨r, l, p, hFmem, hrn, hpn, hpl⟩

/-- Witness for `analyze_missing_results_do_not_disqualify` on the concrete
two-rule scenario with an empty recorded result map for the pair (P2, P1):
`all()` of the empty map being true, the pair is reported. -/
theorem analyze_missing_results_do_not_disqualify_witness :
    (∃ r ps p, (r, ps) ∈ [(plainRule2, [plainRule1])] ∧
      rulesByName [plainRule1, plainRule2] "P2" = some r ∧
      rulesByName [plainRule1, plainRule2] "P1" = some p ∧ p ∈ ps) ↔
    ([] : ChecksOutputs).all (fun c => c.2.1) = true :=
  analyze_missing_results_do_not_disqualify [plainRule1, plainRule2]
    [("P2", [("P1", [])])] [(plainRule2, [plainRule1])] "P2" [("P1", [])] "P1" []
    (by decide) (by decide) (by decide) (by decide) (by decide)
